import Mathlib

/-!
Verification of the go-skes YKOATH protocol core: TLV codec, APDU
transceiver with continuation chaining, session lifecycle, and the
credential LIST command. Bytes are modelled as natural numbers; byte
slices as lists of naturals; fallible operations return sum types.
-/

namespace Skes

/-- A TLV entry: a single tag byte paired with an arbitrary-length value. -/
structure TV where
  tag : Nat
  value : List Nat
deriving DecidableEq

/-- Fuel-indexed worker computing the number of base-256 digits. -/
def byteLenAux : Nat → Nat → Nat
  | 0, _ => 1
  | fuel + 1, n => if n < 256 then 1 else 1 + byteLenAux fuel (n / 256)

/-- Number of base-256 digits of a natural number (at least one). -/
def byteLen (n : Nat) : Nat :=
  byteLenAux n n

/-- Fuel-indexed worker computing big-endian base-256 digits. -/
def beBytesAux : Nat → Nat → List Nat
  | 0, n => [n]
  | fuel + 1, n => if n < 256 then [n] else beBytesAux fuel (n / 256) ++ [n % 256]

/-- Minimal big-endian base-256 digit list of a natural number. -/
def beBytes (n : Nat) : List Nat :=
  beBytesAux n n

theorem byteLenAux_fuel {f1 f2 n : Nat} (h1 : n ≤ f1) (h2 : n ≤ f2) :
    byteLenAux f1 n = byteLenAux f2 n := by
  induction f1 generalizing f2 n with
  | zero =>
    have hn : n = 0 := by omega
    subst hn
    cases f2 <;> simp [byteLenAux]
  | succ f1 ih =>
    match f2 with
    | 0 =>
      have hn : n = 0 := by omega
      subst hn
      simp [byteLenAux]
    | f2 + 1 =>
      simp only [byteLenAux]
      by_cases hn : n < 256
      · simp [hn]
      · have hdiv : n / 256 < n := Nat.div_lt_self (by omega) (by omega)
        simp only [if_neg hn]
        rw [ih (show n / 256 ≤ f1 by omega) (show n / 256 ≤ f2 by omega)]

theorem byteLen_eq (n : Nat) :
    byteLen n = if n < 256 then 1 else 1 + byteLen (n / 256) := by
  by_cases hn : n < 256
  · match n with
    | 0 => simp [byteLen, byteLenAux, hn]
    | m + 1 => simp [byteLen, byteLenAux, hn]
  · have hpos : 0 < n := by omega
    have hdiv : n / 256 < n := Nat.div_lt_self hpos (by omega)
    match n, hpos with
    | m + 1, _ =>
      simp only [byteLen, byteLenAux, if_neg hn]
      rw [byteLenAux_fuel (show (m + 1) / 256 ≤ m by omega) (le_refl _)]

theorem beBytesAux_fuel {f1 f2 n : Nat} (h1 : n ≤ f1) (h2 : n ≤ f2) :
    beBytesAux f1 n = beBytesAux f2 n := by
  induction f1 generalizing f2 n with
  | zero =>
    have hn : n = 0 := by omega
    subst hn
    cases f2 <;> simp [beBytesAux]
  | succ f1 ih =>
    match f2 with
    | 0 =>
      have hn : n = 0 := by omega
      subst hn
      simp [beBytesAux]
    | f2 + 1 =>
      simp only [beBytesAux]
      by_cases hn : n < 256
      · simp [hn]
      · have hdiv : n / 256 < n := Nat.div_lt_self (by omega) (by omega)
        simp only [if_neg hn]
        rw [ih (show n / 256 ≤ f1 by omega) (show n / 256 ≤ f2 by omega)]

theorem beBytes_eq (n : Nat) :
    beBytes n = if n < 256 then [n] else beBytes (n / 256) ++ [n % 256] := by
  by_cases hn : n < 256
  · match n with
    | 0 => simp [beBytes, beBytesAux, hn]
    | m + 1 => simp [beBytes, beBytesAux, hn]
  · have hpos : 0 < n := by omega
    have hdiv : n / 256 < n := Nat.div_lt_self hpos (by omega)
    match n, hpos with
    | m + 1, _ =>
      simp only [beBytes, beBytesAux, if_neg hn]
      rw [beBytesAux_fuel (show (m + 1) / 256 ≤ m by omega) (le_refl _)]

/-- Big-endian interpretation of a digit list. -/
def fromBE (l : List Nat) : Nat :=
  l.foldl (fun acc b => acc * 256 + b) 0

/-- Modelled from the spec: the TLV length encoding of the codec, whose
implementation is not part of the sources. Single byte when the length is
at most 127; otherwise an extended form whose first byte has the most
significant bit set and counts the following big-endian length bytes. -/
def encodeLen (n : Nat) : List Nat :=
  if n ≤ 127 then [n] else (128 + byteLen n) :: beBytes n

/-- Modelled from the spec: TLV encoding of one entry as tag, length, value. -/
def encodeTV (e : TV) : List Nat :=
  e.tag :: (encodeLen e.value.length ++ e.value)

/-- Modelled from the spec: the TLV Encode over a sequence of entries,
concatenating the per-entry encodings. -/
def encode (es : List TV) : List Nat :=
  (es.map encodeTV).flatten

/-- Modelled from the spec: the `write` helper used by the transceiver to
frame request data, tagging every value with the given pad tag. -/
def write (t : Nat) (values : List (List Nat)) : List Nat :=
  encode (values.map fun v => ⟨t, v⟩)

/-- Decode error taxonomy of the TLV codec. -/
inductive TLVError where
  | truncatedTLV
deriving DecidableEq

instance {ε α : Type} [DecidableEq ε] [DecidableEq α] : DecidableEq (Except ε α) := fun a b =>
  match a, b with
  | .ok a, .ok b => decidable_of_iff (a = b) (by simp)
  | .error a, .error b => decidable_of_iff (a = b) (by simp)
  | .ok _, .error _ => isFalse (by simp)
  | .error _, .ok _ => isFalse (by simp)

/-- Modelled from the spec: reading one length field, single byte when at
most 127, else an extended form; fails when the buffer is exhausted. -/
def decodeLen : List Nat → Option (Nat × List Nat)
  | [] => none
  | b :: rest =>
    if b ≤ 127 then some (b, rest)
    else
      let k := b - 128
      if rest.length < k then none
      else some (fromBE (rest.take k), rest.drop k)

theorem decodeLen_length {l : List Nat} {n : Nat} {r : List Nat}
    (h : decodeLen l = some (n, r)) : r.length ≤ l.length := by
  match l with
  | [] => simp [decodeLen] at h
  | b :: rest =>
    simp only [decodeLen] at h
    split at h
    · simp only [Option.some.injEq, Prod.mk.injEq] at h
      simp [← h.2]
    · split at h
      · simp at h
      · simp only [Option.some.injEq, Prod.mk.injEq] at h
        rw [← h.2]
        simp
        omega

/-- Fuel-indexed worker for Decode; the fuel only forces termination and is
always at least the buffer length, so the zero case with a non-empty buffer
is unreachable. -/
def decodeAux : Nat → List Nat → Except TLVError (List TV)
  | _, [] => .ok []
  | 0, _ :: _ => .error .truncatedTLV
  | fuel + 1, _t :: rest =>
    match decodeLen rest with
    | none => .error .truncatedTLV
    | some (len, rest2) =>
      if rest2.length < len then .error .truncatedTLV
      else
        match decodeAux fuel (rest2.drop len) with
        | .error e => .error e
        | .ok es => .ok (⟨_t, rest2.take len⟩ :: es)

/-- Modelled from the spec: the TLV Decode, whose implementation is not part
of the sources. Repeatedly reads a tag byte, a length and that many value
bytes until the buffer is exhausted; fails with TruncatedTLV when a declared
length exceeds the remaining buffer. -/
def decode (l : List Nat) : Except TLVError (List TV) :=
  decodeAux l.length l

theorem decodeAux_fuel {f1 f2 : Nat} {l : List Nat}
    (h1 : l.length ≤ f1) (h2 : l.length ≤ f2) :
    decodeAux f1 l = decodeAux f2 l := by
  induction f1 generalizing f2 l with
  | zero =>
    match l with
    | [] => cases f2 <;> rfl
    | _ :: _ => simp at h1
  | succ f1 ih =>
    match l with
    | [] => cases f2 <;> rfl
    | t :: rest =>
      match f2 with
      | 0 => simp at h2
      | f2 + 1 =>
        simp only [decodeAux]
        rcases hdl : decodeLen rest with _ | ⟨len, rest2⟩
        · rfl
        · have hr2 := decodeLen_length hdl
          by_cases hlt : rest2.length < len
          · simp [hlt]
          · have hd : (rest2.drop len).length ≤ f1 := by
              simp only [List.length_cons] at h1
              simp only [List.length_drop]
              omega
            have hd2 : (rest2.drop len).length ≤ f2 := by
              simp only [List.length_cons] at h2
              simp only [List.length_drop]
              omega
            simp [hlt, ih hd hd2]

/-- Unfolding equation of Decode on a non-empty buffer, phrased with the
recursive call back through decode itself. -/
theorem decode_cons (t : Nat) (rest : List Nat) :
    decode (t :: rest) =
      match decodeLen rest with
      | none => .error .truncatedTLV
      | some (len, rest2) =>
        if rest2.length < len then .error .truncatedTLV
        else
          match decode (rest2.drop len) with
          | .error e => .error e
          | .ok es => .ok (⟨t, rest2.take len⟩ :: es) := by
  show decodeAux (rest.length + 1) (t :: rest) = _
  simp only [decodeAux]
  rcases hdl : decodeLen rest with _ | ⟨len, rest2⟩
  · rfl
  · have hr2 := decodeLen_length hdl
    by_cases hlt : rest2.length < len
    · simp [hlt]
    · have hd : (rest2.drop len).length ≤ rest.length := by
        simp only [List.length_drop]
        omega
      have heq : decodeAux rest.length (rest2.drop len)
          = decodeAux (rest2.drop len).length (rest2.drop len) :=
        decodeAux_fuel hd (le_refl _)
      simp [hlt, heq, decode]

theorem byteLen_pos (n : Nat) : 1 ≤ byteLen n := by
  rw [byteLen_eq]
  split <;> omega

theorem beBytes_length (n : Nat) : (beBytes n).length = byteLen n := by
  induction n using Nat.strong_induction_on with
  | _ n ih =>
    rw [beBytes_eq, byteLen_eq]
    by_cases h : n < 256
    · simp [h]
    · have hdiv : n / 256 < n := Nat.div_lt_self (by omega) (by omega)
      simp only [if_neg h, List.length_append, List.length_cons, List.length_nil, ih _ hdiv]
      omega

theorem fromBE_append_singleton (l : List Nat) (b : Nat) :
    fromBE (l ++ [b]) = fromBE l * 256 + b := by
  simp [fromBE, List.foldl_append]

theorem fromBE_beBytes (n : Nat) : fromBE (beBytes n) = n := by
  induction n using Nat.strong_induction_on with
  | _ n ih =>
    rw [beBytes_eq]
    by_cases h : n < 256
    · simp [h, fromBE]
    · have hdiv : n / 256 < n := Nat.div_lt_self (by omega) (by omega)
      rw [if_neg h, fromBE_append_singleton, ih _ hdiv]
      omega

theorem decodeLen_encodeLen (n : Nat) (rest : List Nat) :
    decodeLen (encodeLen n ++ rest) = some (n, rest) := by
  by_cases h : n ≤ 127
  · simp [encodeLen, h, decodeLen]
  · have hb := byteLen_pos n
    have hlen := beBytes_length n
    simp only [encodeLen, if_neg h, List.cons_append, decodeLen]
    rw [if_neg (by omega)]
    have hk : 128 + byteLen n - 128 = byteLen n := by omega
    rw [hk, if_neg (by simp [hlen])]
    rw [List.take_append_of_le_length (by omega), List.drop_append_of_le_length (by omega)]
    rw [List.take_of_length_le (by omega), List.drop_eq_nil_of_le (by omega)]
    simp [fromBE_beBytes]

/-- Decoding an encoded sequence followed by any remainder decodes the
sequence entries and continues with the remainder. -/
theorem decode_encode_append (es : List TV) (rest : List Nat) :
    decode (encode es ++ rest) =
      match decode rest with
      | .error e => .error e
      | .ok es2 => .ok (es ++ es2) := by
  induction es with
  | nil =>
    simp only [encode, List.map_nil, List.flatten_nil, List.nil_append]
    cases decode rest <;> simp
  | cons e es ih =>
    have hassoc : encode (e :: es) ++ rest =
        e.tag :: (encodeLen e.value.length ++ (e.value ++ (encode es ++ rest))) := by
      simp [encode, encodeTV, List.append_assoc]
    rw [hassoc, decode_cons]
    split
    · next heq =>
        rw [decodeLen_encodeLen] at heq
        cases heq
    · next len rest2 heq =>
        rw [decodeLen_encodeLen] at heq
        have h1 : e.value.length = len := (Prod.mk.injEq _ _ _ _ ▸ Option.some.inj heq).1
        have h2 : e.value ++ (encode es ++ rest) = rest2 :=
          (Prod.mk.injEq _ _ _ _ ▸ Option.some.inj heq).2
        subst h1
        subst h2
        rw [if_neg (by simp)]
        rw [List.drop_append_of_le_length (by omega), List.take_append_of_le_length (by omega)]
        simp only [List.take_of_length_le (le_refl _), List.drop_eq_nil_of_le (le_refl _),
          List.nil_append, ih]
        cases decode rest <;> simp

/-! ### APDU transceiver (`send` in the sources)

The transport is modelled as a script: the list of raw responses the card
returns to successive Transmit calls. The trace records every transmitted
command, every buffer handed to the TLV decoder, and the outcome. -/

/-- Modelled from the spec: the iso7816 status-word test for
MORE-DATA-AVAILABLE, a status word whose first byte is 0x61. -/
def isMore (code : List Nat) : Bool :=
  code.head? == some 0x61

/-- Modelled from the spec: the iso7816 status-word test for SUCCESS,
the status word 0x90 0x00. -/
def isSuccess (code : List Nat) : Bool :=
  code == [0x90, 0x00]

/-- The trailing two bytes of a raw response (the status word). -/
def codeOf (res : List Nat) : List Nat :=
  res.drop (res.length - 2)

/-- A raw response minus its trailing two status bytes (the payload). -/
def payload (res : List Nat) : List Nat :=
  res.take (res.length - 2)

/-- The fixed send-remaining APDU installed after every more-data status. -/
def sendRemainingAPDU : List Nat :=
  [0x00, 0xa5, 0x00, 0x00]

/-- Outcome of one `send` call. `panicked` models the out-of-bounds slice
taken on a response shorter than the two status bytes. -/
inductive SendOutcome where
  | decoded (res : Except TLVError (List TV))
  | statusError (code : List Nat)
  | transmitFailure
  | panicked

/-- Observable trace of one `send` call: the commands transmitted in order,
the buffers passed to the TLV decoder, and the outcome. -/
structure SendTrace where
  transmits : List (List Nat)
  decodes : List (List Nat)
  outcome : SendOutcome

/-- The retry loop of `send`: transmit the command, split off the status
word, accumulate the payload; on more-data continue with the fixed
send-remaining APDU, on success decode the accumulator, otherwise return
the status word as the error. An exhausted script is a transport error. -/
def sendLoop : List (List Nat) → List Nat → List Nat → SendTrace
  | [], cmd, _ => ⟨[cmd], [], .transmitFailure⟩
  | res :: rest, cmd, acc =>
    if res.length < 2 then ⟨[cmd], [], .panicked⟩
    else
      let acc2 := acc ++ payload res
      if isMore (codeOf res) then
        let t := sendLoop rest sendRemainingAPDU acc2
        ⟨cmd :: t.transmits, t.decodes, t.outcome⟩
      else if isSuccess (codeOf res) then
        ⟨[cmd], [acc2], .decoded (decode acc2)⟩
      else
        ⟨[cmd], [], .statusError (codeOf res)⟩

/-- The initial command buffer built by `send`. -/
def initialCmd (cla ins p1 p2 : Nat) (data : List (List Nat)) : List Nat :=
  [cla, ins, p1, p2] ++ write 0x00 data

/-- `send` as in the sources, run against a scripted transport. -/
def send (cla ins p1 p2 : Nat) (data : List (List Nat))
    (script : List (List Nat)) : SendTrace :=
  sendLoop script (initialCmd cla ins p1 p2 data) []

/-! ### Credential LIST command -/

/-- The result of the LIST instruction: algorithm and type nibbles of the
first value byte and the remaining name bytes. -/
structure CredName where
  algorithm : Nat
  typ : Nat
  name : List Nat
deriving DecidableEq

/-- Outcome of interpreting the decoded LIST entries. `panicked` models the
out-of-bounds index taken on an empty value. -/
inductive ListOutcome where
  | ok (names : List CredName)
  | unknownTag (t : Nat)
  | panicked
deriving DecidableEq

/-- The credential built from one well-formed name-list value. -/
def credOf (v0 : Nat) (rest : List Nat) : CredName :=
  ⟨v0 &&& 0x0f, v0 &&& 0xf0, rest⟩

/-- The entry interpretation loop of `List()`: every entry must carry tag
0x72; its first value byte yields the algorithm (low nibble bits) and type
(high nibble bits), the remaining bytes the name; any other tag fails the
whole call with that tag. -/
def listCreds : List TV → ListOutcome
  | [] => .ok []
  | tv :: rest =>
    if tv.tag == 0x72 then
      match tv.value with
      | [] => .panicked
      | v0 :: vrest =>
        match listCreds rest with
        | .ok ns => .ok (credOf v0 vrest :: ns)
        | e => e
    else
      .unknownTag tv.tag

/-! ### Session lifecycle and reader discovery -/

/-- Whether the first list starts with the second. -/
def leadsWith : List Char → List Char → Bool
  | _, [] => true
  | [], _ :: _ => false
  | a :: as, b :: bs => a == b && leadsWith as bs

/-- Whether the second list occurs contiguously inside the first. -/
def containsSub : List Char → List Char → Bool
  | hay, needle =>
    leadsWith hay needle ||
      match hay with
      | [] => false
      | _ :: as => containsSub as needle

/-- ASCII lower-casing of one character, as strings.ToLower acts on the
ASCII range of the reader names. -/
def lowerChar (c : Char) : Char :=
  if 65 ≤ c.toNat ∧ c.toNat ≤ 90 then Char.ofNat (c.toNat + 32) else c

/-- The reader-selection test of `New`: the lower-cased reader name
contains the marker string yubikey. -/
def matchesYubikey (reader : String) : Bool :=
  containsSub (reader.data.map lowerChar) ("yubikey".data)

/-- Share mode passed to Connect (scard.ShareShared in the sources). -/
inductive ShareMode where
  | shared
  | exclusive
deriving DecidableEq

/-- Protocol passed to Connect (scard.ProtocolAny in the sources). -/
inductive Protocol where
  | t0
  | t1
  | any
deriving DecidableEq

/-- The arguments of the Connect call issued by `New`. -/
structure ConnectCall where
  reader : String
  mode : ShareMode
  proto : Protocol
deriving DecidableEq

/-- Result of `New` over a given reader list. -/
inductive NewResult where
  | opened (call : ConnectCall)
  | noSuitableReader (scanned : Nat)
deriving DecidableEq

/-- The first reader whose name matches the yubikey marker. -/
def firstYubikey : List String → Option String
  | [] => none
  | r :: rest => if matchesYubikey r then some r else firstYubikey rest

/-- `New` as in the sources: scan the readers in order, connect to the
first match in shared, protocol-agnostic mode; with no match fail with
NoSuitableReader carrying the number of readers scanned. -/
def NewSession (readers : List String) : NewResult :=
  match firstYubikey readers with
  | some r => .opened ⟨r, .shared, .any⟩
  | none => .noSuitableReader readers.length

/-- Result of `Close`. -/
inductive CloseResult where
  | ok
  | disconnectFailure
  | releaseFailure
deriving DecidableEq

/-- Observable trace of `Close`: whether Release was attempted at all, and
the returned value. -/
structure CloseTrace where
  releaseAttempted : Bool
  result : CloseResult
deriving DecidableEq

/-- `Close` as in the sources, over a transport whose Disconnect and
Release steps each either succeed or fail (true means the step fails):
a failed Disconnect returns at once, before Release. -/
def Close (disconnectFails releaseFails : Bool) : CloseTrace :=
  if disconnectFails then ⟨false, .disconnectFailure⟩
  else if releaseFails then ⟨true, .releaseFailure⟩
  else ⟨true, .ok⟩

/-! ### Lemmas about the transceiver loop -/

theorem eq_of_isSuccess {c : List Nat} (h : isSuccess c = true) : c = [0x90, 0x00] := by
  simpa [isSuccess] using h

theorem sendLoop_chain : ∀ (mids : List (List Nat)) (last cmd acc : List Nat),
    (∀ r ∈ mids, 2 ≤ r.length ∧ isMore (codeOf r) = true) →
    2 ≤ last.length → isSuccess (codeOf last) = true →
    sendLoop (mids ++ [last]) cmd acc =
      ⟨cmd :: List.replicate mids.length sendRemainingAPDU,
       [acc ++ ((mids ++ [last]).map payload).flatten],
       .decoded (decode (acc ++ ((mids ++ [last]).map payload).flatten))⟩ := by
  intro mids
  induction mids with
  | nil =>
    intro last cmd acc _hm hl hs
    have hsm : isMore (codeOf last) = false := by rw [eq_of_isSuccess hs]; rfl
    simp [sendLoop, show ¬ last.length < 2 by omega, hsm, hs]
  | cons m mids ih =>
    intro last cmd acc hm hl hs
    obtain ⟨hm1, hm2⟩ := hm m (List.mem_cons_self _ _)
    have hrest : ∀ r ∈ mids, 2 ≤ r.length ∧ isMore (codeOf r) = true :=
      fun r hr => hm r (List.mem_cons_of_mem _ hr)
    simp only [List.cons_append, sendLoop]
    rw [if_neg (show ¬ m.length < 2 by omega)]
    simp only [hm2, if_true, List.append_eq]
    rw [ih last sendRemainingAPDU (acc ++ payload m) hrest hl hs]
    simp [List.replicate_succ, List.append_assoc]

theorem sendLoop_failStatus : ∀ (mids : List (List Nat)) (bad : List Nat)
    (rest : List (List Nat)) (cmd acc : List Nat),
    (∀ r ∈ mids, 2 ≤ r.length ∧ isMore (codeOf r) = true) →
    2 ≤ bad.length → isMore (codeOf bad) = false → isSuccess (codeOf bad) = false →
    sendLoop (mids ++ bad :: rest) cmd acc =
      ⟨cmd :: List.replicate mids.length sendRemainingAPDU, [],
       .statusError (codeOf bad)⟩ := by
  intro mids
  induction mids with
  | nil =>
    intro bad rest cmd acc _hm hb hnm hns
    simp [sendLoop, show ¬ bad.length < 2 by omega, hnm, hns]
  | cons m mids ih =>
    intro bad rest cmd acc hm hb hnm hns
    obtain ⟨hm1, hm2⟩ := hm m (List.mem_cons_self _ _)
    have hrest : ∀ r ∈ mids, 2 ≤ r.length ∧ isMore (codeOf r) = true :=
      fun r hr => hm r (List.mem_cons_of_mem _ hr)
    simp only [List.cons_append, sendLoop]
    rw [if_neg (show ¬ m.length < 2 by omega)]
    simp only [hm2, if_true, List.append_eq]
    rw [ih bad rest sendRemainingAPDU (acc ++ payload m) hrest hb hnm hns]
    simp [List.replicate_succ]

theorem sendLoop_noPanic : ∀ (script : List (List Nat)) (cmd acc : List Nat),
    (∀ r ∈ script, 2 ≤ r.length) →
    (sendLoop script cmd acc).outcome ≠ .panicked := by
  intro script
  induction script with
  | nil =>
    intro cmd acc _h
    simp [sendLoop]
  | cons res rest ih =>
    intro cmd acc h
    have h1 := h res (List.mem_cons_self _ _)
    have hrest : ∀ r ∈ rest, 2 ≤ r.length := fun r hr => h r (List.mem_cons_of_mem _ hr)
    simp only [sendLoop]
    rw [if_neg (show ¬ res.length < 2 by omega)]
    by_cases hmore : isMore (codeOf res) = true
    · simpa [hmore] using ih sendRemainingAPDU (acc ++ payload res) hrest
    · simp only [Bool.not_eq_true] at hmore
      by_cases hsucc : isSuccess (codeOf res) = true
      · simp [hmore, hsucc]
      · simp only [Bool.not_eq_true] at hsucc
        simp [hmore, hsucc]

/-! ### Lemmas about the LIST interpretation and discovery -/

/-- The credential built from a well-formed entry (empty values never reach
this in a run that does not panic). -/
def credOfTV (e : TV) : CredName :=
  match e.value with
  | [] => credOf 0 []
  | v0 :: r => credOf v0 r

theorem listCreds_wellFormed : ∀ (entries : List TV),
    (∀ e ∈ entries, e.tag = 0x72 ∧ e.value ≠ []) →
    listCreds entries = .ok (entries.map credOfTV) := by
  intro entries
  induction entries with
  | nil => intro _; rfl
  | cons e entries ih =>
    intro h
    obtain ⟨htag, hval⟩ := h e (List.mem_cons_self _ _)
    have hrest : ∀ x ∈ entries, x.tag = 0x72 ∧ x.value ≠ [] :=
      fun x hx => h x (List.mem_cons_of_mem _ hx)
    match hv : e.value with
    | [] => exact absurd hv hval
    | v0 :: vrest =>
      simp only [listCreds, htag, beq_self_eq_true, if_true, hv, ih hrest,
        List.map_cons]
      simp [credOfTV, hv]

theorem listCreds_unknown : ∀ (pre : List TV) (tv : TV) (rest : List TV),
    (∀ e ∈ pre, e.tag = 0x72 ∧ e.value ≠ []) → tv.tag ≠ 0x72 →
    listCreds (pre ++ tv :: rest) = .unknownTag tv.tag := by
  intro pre
  induction pre with
  | nil =>
    intro tv rest _h htag
    simp [listCreds, htag]
  | cons e pre ih =>
    intro tv rest h htag
    obtain ⟨het, hev⟩ := h e (List.mem_cons_self _ _)
    have hrest : ∀ x ∈ pre, x.tag = 0x72 ∧ x.value ≠ [] :=
      fun x hx => h x (List.mem_cons_of_mem _ hx)
    match hv : e.value with
    | [] => exact absurd hv hev
    | v0 :: vrest =>
      simp only [List.cons_append, listCreds, het, beq_self_eq_true, if_true, hv,
        List.append_eq, ih tv rest hrest htag]

theorem listCreds_noPanic : ∀ (entries : List TV),
    (∀ e ∈ entries, e.tag = 0x72 → e.value ≠ []) →
    listCreds entries ≠ .panicked := by
  intro entries
  induction entries with
  | nil => intro _; simp [listCreds]
  | cons e entries ih =>
    intro h
    have hrest : ∀ x ∈ entries, x.tag = 0x72 → x.value ≠ [] :=
      fun x hx => h x (List.mem_cons_of_mem _ hx)
    by_cases htag : e.tag = 0x72
    · match hv : e.value with
      | [] => exact absurd hv (h e (List.mem_cons_self _ _) htag)
      | v0 :: vrest =>
        simp only [listCreds, htag, beq_self_eq_true, if_true, hv]
        cases hrec : listCreds entries with
        | ok ns => simp
        | unknownTag t => simp
        | panicked => exact absurd hrec (ih hrest)
    · simp [listCreds, htag]

theorem firstYubikey_found : ∀ (pre : List String) (r : String) (rest : List String),
    (∀ p ∈ pre, matchesYubikey p = false) → matchesYubikey r = true →
    firstYubikey (pre ++ r :: rest) = some r := by
  intro pre
  induction pre with
  | nil => intro r rest _h hr; simp [firstYubikey, hr]
  | cons p pre ih =>
    intro r rest h hr
    have hp := h p (List.mem_cons_self _ _)
    have hrest : ∀ x ∈ pre, matchesYubikey x = false :=
      fun x hx => h x (List.mem_cons_of_mem _ hx)
    simp [firstYubikey, hp, ih r rest hrest hr]

theorem firstYubikey_none : ∀ (readers : List String),
    (∀ p ∈ readers, matchesYubikey p = false) → firstYubikey readers = none := by
  intro readers
  induction readers with
  | nil => intro _; rfl
  | cons p readers ih =>
    intro h
    have hp := h p (List.mem_cons_self _ _)
    have hrest : ∀ x ∈ readers, matchesYubikey x = false :=
      fun x hx => h x (List.mem_cons_of_mem _ hx)
    simp [firstYubikey, hp, ih hrest]

/-! ### Claim theorems -/

/-- Claim C1 (amended): for every TLV entry with tag 0x72 and a non-empty
value, List produces a credential whose algorithm is the low nibble of the
first value byte, whose type is the high-nibble bits of the first value
byte left in place (first byte masked with 0xf0, not shifted down), and
whose name is the remaining bytes; on the single entry (0x72, 0x21 ++ work)
this gives algorithm 1, type 0x20 and name work. -/
theorem C1_list_nibbles (entries : List TV)
    (h : ∀ e ∈ entries, e.tag = 0x72 ∧ e.value ≠ []) :
    listCreds entries = .ok (entries.map credOfTV) :=
  listCreds_wellFormed entries h

/-- Claim C1, witness: on the single entry (0x72, 0x21 ++ work) List yields
exactly one credential with algorithm 1, type 0x20 = 32 and name work. -/
theorem C1_list_nibbles_witness :
    listCreds [⟨0x72, [0x21, 119, 111, 114, 107]⟩]
      = .ok [⟨1, 32, [119, 111, 114, 107]⟩] :=
  C1_list_nibbles [⟨0x72, [0x21, 119, 111, 114, 107]⟩] (by decide)

/-- Claim C1, counterexample: on the entry (0x72, 0x21 ++ work) the type
field produced by the code is 0x21 masked with 0xf0, that is 32, not the
shifted high nibble 2 the claim states. -/
theorem C1_counterexample :
    listCreds [⟨0x72, [0x21, 119, 111, 114, 107]⟩]
        = .ok [⟨1, 32, [119, 111, 114, 107]⟩]
      ∧ (32 : Nat) ≠ 2 := by
  exact ⟨by decide, by decide⟩

/-- Claim C2 (amended): Close returns the wrapped disconnect failure at
once when the disconnect of the card fails, without attempting to release
the enumeration context; only when the disconnect succeeds is Release
attempted, and its failure reported as the release failure. -/
theorem C2_close_early_return :
    ∀ d r : Bool,
      Close d r =
        ⟨!d, if d then .disconnectFailure
          else if r then .releaseFailure else .ok⟩ := by
  decide

/-- Claim C2, counterexample: when both the disconnect and the release
would fail, Close does not attempt Release at all and reports only the
disconnect failure, contradicting the claim that the release is attempted
and both failures reported. -/
theorem C2_counterexample :
    (Close true true).releaseAttempted = false
      ∧ (Close true true).result = .disconnectFailure := by
  exact ⟨by decide, by decide⟩

/-- Claim C3: over a transport whose responses carry more-data status words
zero or more times followed by a success, send transmits the original
command buffer (the four header bytes followed by the TLV framing of the
data) first, transmits the fixed send-remaining APDU after every more-data
status, and concatenates the payload fragments in arrival order before TLV
decoding the accumulated payload. -/
theorem C3_send_chaining (cla ins p1 p2 : Nat) (data : List (List Nat))
    (mids : List (List Nat)) (last : List Nat)
    (hm : ∀ r ∈ mids, 2 ≤ r.length ∧ isMore (codeOf r) = true)
    (hl : 2 ≤ last.length) (hs : isSuccess (codeOf last) = true) :
    send cla ins p1 p2 data (mids ++ [last]) =
      ⟨initialCmd cla ins p1 p2 data :: List.replicate mids.length sendRemainingAPDU,
       [((mids ++ [last]).map payload).flatten],
       .decoded (decode (((mids ++ [last]).map payload).flatten))⟩ := by
  have h := sendLoop_chain mids last (initialCmd cla ins p1 p2 data) [] hm hl hs
  simpa [send] using h

/-- Claim C3, witness: for the status-word sequence 0x61 0x10, 0x61 0x05,
0x90 0x00 exactly three transmits occur, the second and third being the
send-remaining APDU, and the three payload fragments are concatenated in
order into the single buffer handed to the TLV decoder. -/
theorem C3_send_chaining_witness :
    send 0x00 0xa1 0x00 0x00 []
        [[0xAA, 0x61, 0x10], [0xBB, 0x61, 0x05], [0xCC, 0x90, 0x00]] =
      ⟨[initialCmd 0x00 0xa1 0x00 0x00 [], sendRemainingAPDU, sendRemainingAPDU],
       [[0xAA, 0xBB, 0xCC]],
       .decoded (decode [0xAA, 0xBB, 0xCC])⟩ :=
  C3_send_chaining 0x00 0xa1 0x00 0x00 []
    [[0xAA, 0x61, 0x10], [0xBB, 0x61, 0x05]] [0xCC, 0x90, 0x00]
    (by decide) (by decide) (by decide)

/-- Claim C4: when, after zero or more more-data responses, a response
carries a status word that is neither success nor more-data, send stops at
that first such status word, returns it itself as the error, and never
hands any buffer to the TLV decoder. -/
theorem C4_send_failure_status (cla ins p1 p2 : Nat) (data : List (List Nat))
    (mids : List (List Nat)) (bad : List Nat) (rest : List (List Nat))
    (hm : ∀ r ∈ mids, 2 ≤ r.length ∧ isMore (codeOf r) = true)
    (hb : 2 ≤ bad.length)
    (hnm : isMore (codeOf bad) = false) (hns : isSuccess (codeOf bad) = false) :
    send cla ins p1 p2 data (mids ++ bad :: rest) =
      ⟨initialCmd cla ins p1 p2 data :: List.replicate mids.length sendRemainingAPDU,
       [], .statusError (codeOf bad)⟩ := by
  have h := sendLoop_failStatus mids bad rest (initialCmd cla ins p1 p2 data) [] hm hb hnm hns
  simpa [send] using h

/-- Claim C4, witness: a first response with status word 0x6A 0x82 ends the
loop at once, the status word is the error, and no TLV decode happens. -/
theorem C4_send_failure_status_witness :
    send 0x00 0xa1 0x00 0x00 [] [[0x6A, 0x82]] =
      ⟨[initialCmd 0x00 0xa1 0x00 0x00 []], [], .statusError [0x6A, 0x82]⟩ :=
  C4_send_failure_status 0x00 0xa1 0x00 0x00 [] [] [0x6A, 0x82] []
    (by decide) (by decide) (by decide) (by decide)

/-- Claim C5: for every sequence of TLV entries, including entries whose
values are longer than 127 bytes and hence use the extended multi-byte
length form, decoding the encoding returns exactly the original entries
with tags, values and order preserved. -/
theorem C5_roundtrip (es : List TV) : decode (encode es) = .ok es := by
  have h := decode_encode_append es []
  rw [List.append_nil] at h
  simpa [decode, decodeAux] using h

/-- Claim C6: a buffer in which an entry declares a length exceeding the
number of remaining bytes makes Decode fail with the TruncatedTLV error;
the preceding well-formed entries do not mask the failure, and no byte
beyond the end of the buffer is ever read. -/
theorem C6_truncated (es : List TV) (t L : Nat) (v : List Nat)
    (h : v.length < L) :
    decode (encode es ++ t :: (encodeLen L ++ v)) = .error .truncatedTLV := by
  have hinner : decode (t :: (encodeLen L ++ v)) = .error .truncatedTLV := by
    rw [decode_cons, decodeLen_encodeLen]
    simp [h]
  rw [decode_encode_append, hinner]

/-- Claim C6, witness: the buffer 0x71, 5, 1, 2 declares five value bytes
with only two remaining and Decode fails with TruncatedTLV. -/
theorem C6_truncated_witness :
    decode (encode [] ++ 0x71 :: (encodeLen 5 ++ [1, 2])) = .error .truncatedTLV :=
  C6_truncated [] 0x71 5 [1, 2] (by decide)

/-- Claim C7: New selects the first reader whose name contains yubikey
case-insensitively and connects to it in shared, protocol-agnostic mode;
with no matching reader it fails with NoSuitableReader carrying the number
of readers scanned; on the readers ACS Reader and YubiKey 5 NFC it selects
the second. -/
theorem C7_open_discovery :
    (∀ (pre : List String) (r : String) (rest : List String),
        (∀ p ∈ pre, matchesYubikey p = false) → matchesYubikey r = true →
        NewSession (pre ++ r :: rest) = .opened ⟨r, .shared, .any⟩) ∧
    (∀ readers : List String,
        (∀ p ∈ readers, matchesYubikey p = false) →
        NewSession readers = .noSuitableReader readers.length) ∧
    NewSession ["ACS Reader", "YubiKey 5 NFC"]
      = .opened ⟨"YubiKey 5 NFC", .shared, .any⟩ := by
  refine ⟨fun pre r rest hpre hr => ?_, fun readers hnone => ?_, by decide⟩
  · simp [NewSession, firstYubikey_found pre r rest hpre hr]
  · simp [NewSession, firstYubikey_none readers hnone]

/-- Claim C7, witness: on the readers ACS Reader and YubiKey 5 NFC the
second is selected and connected in shared protocol-agnostic mode, and on a
single non-matching reader the failure reports one reader scanned. -/
theorem C7_open_discovery_witness :
    NewSession ["ACS Reader", "YubiKey 5 NFC"]
        = .opened ⟨"YubiKey 5 NFC", .shared, .any⟩
      ∧ NewSession ["ACS Reader"] = .noSuitableReader 1 :=
  ⟨C7_open_discovery.2.2, C7_open_discovery.2.1 ["ACS Reader"] (by decide)⟩

/-- Claim C8: a decoded response containing an entry whose tag is not 0x72
makes List fail the whole call with the unknown-tag error carrying the
offending tag, returning no credentials; the well-formed 0x72 entries
before it do not mask the failure. -/
theorem C8_list_unknown_tag (pre : List TV) (tv : TV) (rest : List TV)
    (hpre : ∀ e ∈ pre, e.tag = 0x72 ∧ e.value ≠ [])
    (htag : tv.tag ≠ 0x72) :
    listCreds (pre ++ tv :: rest) = .unknownTag tv.tag :=
  listCreds_unknown pre tv rest hpre htag

/-- Claim C8, witness: an entry with tag 0x73 produces the unknown-tag
failure referencing 0x73. -/
theorem C8_list_unknown_tag_witness :
    listCreds [⟨0x73, [1]⟩] = .unknownTag 0x73 :=
  C8_list_unknown_tag [] ⟨0x73, [1]⟩ [] (by simp) (by decide)

/-- Claim C9: send takes the status word as the last two bytes of every
raw response and the payload as the bytes before them; a response shorter
than two bytes makes that slicing go out of bounds, and the call is safe
exactly under the precondition that every transport response has length at
least two. -/
theorem C9_send_short_response :
    (∀ (cla ins p1 p2 : Nat) (data : List (List Nat)) (script : List (List Nat)),
        (∀ r ∈ script, 2 ≤ r.length) →
        (send cla ins p1 p2 data script).outcome ≠ .panicked) ∧
    (∀ (cla ins p1 p2 : Nat) (data : List (List Nat)) (r : List Nat)
        (rest : List (List Nat)),
        r.length < 2 →
        send cla ins p1 p2 data (r :: rest) =
          ⟨[initialCmd cla ins p1 p2 data], [], .panicked⟩) := by
  constructor
  · intro cla ins p1 p2 data script h
    exact sendLoop_noPanic script (initialCmd cla ins p1 p2 data) [] h
  · intro cla ins p1 p2 data r rest h
    simp [send, sendLoop, h]

/-- Claim C9, witness: a two-byte response is handled without panic, and a
one-byte response panics on the first transmit. -/
theorem C9_send_short_response_witness :
    (send 0x00 0xa1 0x00 0x00 [] [[0x90, 0x00]]).outcome ≠ .panicked
      ∧ send 0x00 0xa1 0x00 0x00 [] [[0x61]] =
          ⟨[initialCmd 0x00 0xa1 0x00 0x00 []], [], .panicked⟩ :=
  ⟨C9_send_short_response.1 0x00 0xa1 0x00 0x00 [] [[0x90, 0x00]] (by decide),
   C9_send_short_response.2 0x00 0xa1 0x00 0x00 [] [0x61] [] (by decide)⟩

/-- Claim C10: List reads the first value byte and the remaining bytes of
every 0x72 entry, so it is safe exactly under the precondition that every
0x72 entry has a non-empty value; an empty value makes the indexing go out
of bounds. -/
theorem C10_list_empty_value :
    (∀ entries : List TV,
        (∀ e ∈ entries, e.tag = 0x72 → e.value ≠ []) →
        listCreds entries ≠ .panicked) ∧
    (∀ rest : List TV, listCreds (⟨0x72, []⟩ :: rest) = .panicked) := by
  constructor
  · exact listCreds_noPanic
  · intro rest
    rfl

/-- Claim C10, witness: a 0x72 entry with a one-byte value is handled
without panic, and a 0x72 entry with an empty value panics. -/
theorem C10_list_empty_value_witness :
    listCreds [⟨0x72, [1]⟩] ≠ .panicked
      ∧ listCreds [⟨0x72, []⟩] = .panicked :=
  ⟨C10_list_empty_value.1 [⟨0x72, [1]⟩] (by decide),
   C10_list_empty_value.2 []⟩

end Skes
